import Mathlib

/-!
Verification of the fastsqs dispatch-and-middleware engine specification.

The repository ships only example applications; the engine itself
(middleware pipeline, idempotency guard, retry policy, scheduler,
aggregator, router) is imported from the `fastsqs` package and is not
part of the source tree.  Those components are therefore modelled from
the specification, faithfully to its words; the per-entity lock helper
`get_entity_lock` appears verbatim in
`examples/ordering_with_standard_queues/lambda_function.py` and is
embedded from that source.
-/

namespace FastSQS

/-! ## Middleware pipeline (spec §4.2) -/

/-- Modelled from the spec: a middleware exposes optional `before`,
`after`, `error` hooks around a handler call (spec §4.2).  The engine
code is not in the source tree.  `before` may mutate the context or
raise; `after` receives (and may overwrite) the running result and may
mutate the context; `error` receives the exception and may suppress it
by returning a substitute result.  `mid` is an identifier used only to
observe which hook ran. -/
structure Middleware (Ctx Err Res : Type) where
  mid : Nat
  before : Ctx → Except Err Ctx
  after : Ctx → Res → Ctx × Res
  error : Ctx → Err → Ctx × Option Res

/-- Observable events of one pipeline execution: which hook of which
middleware ran, and whether the handler ran. -/
inductive Event where
  | beforeRun (mid : Nat)
  | handlerRun
  | afterRun (mid : Nat)
  | errorRun (mid : Nat)
deriving DecidableEq, Repr

/-- Modelled from the spec: unwinding through the `error` hooks of the
already-run middleware, last-registered first (`ranRev` is already in
reverse registration order).  A hook returning a substitute result
suppresses the failure and stops the unwinding; otherwise the exception
propagates to the next outer hook (spec §4.2). -/
def unwindErrors {Ctx Err Res : Type} :
    List (Middleware Ctx Err Res) → Ctx → Err → List Event × Except Err Res
  | [], _, e => ([], .error e)
  | m :: rest, ctx, e =>
    match m.error ctx e with
    | (_, some r) => ([.errorRun m.mid], .ok r)
    | (ctx1, none) =>
      let (tr, res) := unwindErrors rest ctx1 e
      (.errorRun m.mid :: tr, res)

/-- Modelled from the spec: on handler success every `after` hook runs in
reverse registration order (`ranRev` is already reversed), each receiving
and able to overwrite the running result (spec §4.2). -/
def runAfters {Ctx Err Res : Type} :
    List (Middleware Ctx Err Res) → Ctx → Res → List Event × Res
  | [], _, r => ([], r)
  | m :: rest, ctx, r =>
    let (ctx1, r1) := m.after ctx r
    let (tr, r2) := runAfters rest ctx1 r1
    (.afterRun m.mid :: tr, r2)

/-- Modelled from the spec: the pipeline loop.  Runs the `before` hooks
of `pending` in registration order, accumulating the already-run
middleware in `ranRev` (reverse registration order); a raising `before`
aborts the remaining `before` hooks and the handler and unwinds through
the `error` hooks of the already-run middleware; once all `before` hooks
complete the handler runs, with `after` hooks on success and `error`
unwinding on failure (spec §4.2). -/
def runPipeline {Ctx Err Res : Type} :
    List (Middleware Ctx Err Res) → List (Middleware Ctx Err Res) →
    Ctx → (Ctx → Except Err Res) → List Event × Except Err Res
  | [], ranRev, ctx, handler =>
    match handler ctx with
    | .ok r =>
      let (tr, r2) := runAfters ranRev ctx r
      (.handlerRun :: tr, .ok r2)
    | .error e =>
      let (tr, res) := unwindErrors ranRev ctx e
      (.handlerRun :: tr, res)
  | m :: rest, ranRev, ctx, handler =>
    match m.before ctx with
    | .ok ctx1 =>
      let (tr, res) := runPipeline rest (m :: ranRev) ctx1 handler
      (.beforeRun m.mid :: tr, res)
    | .error e =>
      let (tr, res) := unwindErrors ranRev ctx e
      (.beforeRun m.mid :: tr, res)

/-- Modelled from the spec: `execute(record, handler, context) -> result`
given an ordered list of middleware (spec §4.2); also returns the trace
of hook events for stating ordering properties. -/
def execute {Ctx Err Res : Type} (mws : List (Middleware Ctx Err Res))
    (handler : Ctx → Except Err Res) (ctx : Ctx) : List Event × Except Err Res :=
  runPipeline mws [] ctx handler

/-- Identifiers of the `before` hooks that ran, in order. -/
def beforeIds (tr : List Event) : List Nat :=
  tr.filterMap fun e =>
    match e with
    | .beforeRun i => some i
    | _ => none

/-- Identifiers of the `after` hooks that ran, in order. -/
def afterIds (tr : List Event) : List Nat :=
  tr.filterMap fun e =>
    match e with
    | .afterRun i => some i
    | _ => none

/-- Identifiers of the `error` hooks that ran, in order. -/
def errorIds (tr : List Event) : List Nat :=
  tr.filterMap fun e =>
    match e with
    | .errorRun i => some i
    | _ => none

/-- Number of handler invocations recorded in the trace. -/
def handlerCount (tr : List Event) : Nat :=
  (tr.filter fun e =>
    match e with
    | .handlerRun => true
    | _ => false).length

/-- Chaining all `before` hooks of a list of middleware in registration
order, as a plain composition: the declarative reading of the first
phase of spec §4.2. -/
def beforeChain {Ctx Err Res : Type} :
    List (Middleware Ctx Err Res) → Ctx → Except Err Ctx
  | [], ctx => .ok ctx
  | m :: rest, ctx =>
    match m.before ctx with
    | .ok ctx1 => beforeChain rest ctx1
    | .error e => .error e

/-- Folding the `after` hooks over a running result, threading the
context: the declarative reading of the success phase of spec §4.2. -/
def afterFold {Ctx Err Res : Type} :
    List (Middleware Ctx Err Res) → Ctx → Res → Res
  | [], _, r => r
  | m :: rest, ctx, r =>
    let (ctx1, r1) := m.after ctx r
    afterFold rest ctx1 r1

/-! ## Records and per-record processing (spec §3, §4.5) -/

/-- A generic queue record (spec §3): the parts of
`{id, body, attributes, groupKey?, dedupKey?}` the claims depend on. -/
structure Record where
  id : String
  body : String
deriving DecidableEq, Repr

/-- Modelled from the spec: the MiddlewareContext is created fresh per
record (spec §3); `mkCtx` builds the fresh context of a record, and the
pipeline runs the record's handler on it.  The engine code is not in the
source tree. -/
def processRecord {Ctx Err Res : Type} (mws : List (Middleware Ctx Err Res))
    (handler : Record → Ctx → Except Err Res) (mkCtx : Record → Ctx)
    (r : Record) : List Event × Except Err Res :=
  execute mws (handler r) (mkCtx r)

/-- Modelled from the spec: per-record fan-out over a batch, each record
processed with its own freshly created context (spec §3, §4.5). -/
def processBatch {Ctx Err Res : Type} (mws : List (Middleware Ctx Err Res))
    (handler : Record → Ctx → Except Err Res) (mkCtx : Record → Ctx)
    (rs : List Record) : List (List Event × Except Err Res) :=
  rs.map (processRecord mws handler mkCtx)

/-! ## Batch result aggregator (spec §4.6) -/

/-- Per-record outcomes split into success and failure
(spec §3 BatchResult). -/
structure BatchResult where
  successIds : List String
  failedIds : List String
deriving DecidableEq, Repr

/-- Modelled from the spec: `record(outcome)` called once per record as
it settles, adding its id to exactly one side (spec §4.6).  The engine
code is not in the source tree. -/
def recordOutcome (br : BatchResult) (id : String) (ok : Bool) : BatchResult :=
  if ok then { br with successIds := br.successIds ++ [id] }
  else { br with failedIds := br.failedIds ++ [id] }

/-- Modelled from the spec: the aggregation of all settled outcomes into
the final BatchResult (spec §4.6 `finalize`). -/
def aggregate (outcomes : List (String × Bool)) : BatchResult :=
  outcomes.foldl (fun br o => recordOutcome br o.1 o.2) ⟨[], []⟩

/-- Whether an `Except` outcome is a success. -/
def isSuccess {Err Res : Type} : Except Err Res → Bool
  | .ok _ => true
  | .error _ => false

/-- Modelled from the spec: the batch call settles every record and
aggregates; it never throws for partial failures — per §7 it could only
fail if aggregation itself cannot run, which never happens here, so the
result is always `.ok` (spec §4.6, §7). -/
def handleBatch {Err Res : Type} (perRecord : Record → Except Err Res)
    (rs : List Record) : Except String BatchResult :=
  .ok (aggregate (rs.map fun r => (r.id, isSuccess (perRecord r))))

/-! ## Idempotency guard (spec §4.3) -/

/-- An idempotency record `{key, result, expiresAt}` (spec §3). -/
structure IdemEntry (Res : Type) where
  key : String
  result : Res
  expiresAt : Nat

/-- Modelled from the spec: store lookup `get(key) -> value|absent`,
honouring the expiry timestamp (spec §3, §4.3). -/
def storeGet {Res : Type} (s : List (IdemEntry Res)) (k : String) (now : Nat) :
    Option Res :=
  match s.find? (fun e => e.key == k) with
  | some e => if now < e.expiresAt then some e.result else none
  | none => none

/-- Modelled from the spec: store update `set(key, value, ttl)`; the new
entry shadows any older entry for the key (spec §4.3). -/
def storeSet {Res : Type} (s : List (IdemEntry Res)) (k : String) (r : Res)
    (expiresAt : Nat) : List (IdemEntry Res) :=
  ⟨k, r, expiresAt⟩ :: s

/-- Observable outcome of one guarded call: the result the caller sees,
the context hit flag, and whether `proceed` was invoked. -/
structure GuardOutcome (Err Res : Type) where
  result : Except Err Res
  hit : Bool
  proceeded : Bool

/-- Modelled from the spec: `guard(record, context, proceed)`.  A hit
within TTL short-circuits — `proceed` is never invoked, the stored
result is returned and the context is annotated with a hit flag; a miss
invokes `proceed`, storing the result with fresh expiry on success and
storing nothing on failure (spec §4.3). -/
def guard {Err Res : Type} (ttl : Nat) (s : List (IdemEntry Res)) (key : String)
    (now : Nat) (proceed : Unit → Except Err Res) :
    List (IdemEntry Res) × GuardOutcome Err Res :=
  match storeGet s key now with
  | some r => (s, ⟨.ok r, true, false⟩)
  | none =>
    match proceed () with
    | .ok r => (storeSet s key r (now + ttl), ⟨.ok r, false, true⟩)
    | .error e => (s, ⟨.error e, false, true⟩)

/-- Modelled from the spec: a sequence of guarded calls sharing one
store, each call given by its deduplication key and the time it runs
(spec §4.3). -/
def runGuards {Err Res : Type} (ttl : Nat) (proceed : Unit → Except Err Res) :
    List (IdemEntry Res) → List (String × Nat) →
    List (IdemEntry Res) × List (GuardOutcome Err Res)
  | s, [] => (s, [])
  | s, c :: rest =>
    let (s1, o) := guard ttl s c.1 c.2 proceed
    let (s2, outs) := runGuards ttl proceed s1 rest
    (s2, o :: outs)

/-- How many of the calls actually invoked `proceed`. -/
def proceedCount {Err Res : Type} (outs : List (GuardOutcome Err Res)) : Nat :=
  (outs.filter fun o => o.proceeded).length

/-! ## Concurrency scheduler (spec §4.5, §5) -/

/-- Modelled from the spec: the scheduler's state — records waiting to be
fanned out, handler executions currently in flight, and settled records
(spec §4.5, §5).  The engine code is not in the source tree. -/
structure SchedState where
  pending : List Nat
  inFlight : List Nat
  settled : List Nat
deriving DecidableEq, Repr

/-- Modelled from the spec: one scheduler transition.  A record may start
only while fewer than `maxConcurrent` executions are in flight; a record
in flight may settle at any time — no cross-record ordering is promised
(spec §4.5). -/
inductive SchedStep (maxConcurrent : Nat) : SchedState → SchedState → Prop where
  | start (r : Nat) (rest : List Nat) (s : SchedState) :
      s.pending = r :: rest → s.inFlight.length < maxConcurrent →
      SchedStep maxConcurrent s ⟨rest, r :: s.inFlight, s.settled⟩
  | finish (r : Nat) (s : SchedState) :
      r ∈ s.inFlight →
      SchedStep maxConcurrent s ⟨s.pending, s.inFlight.erase r, s.settled ++ [r]⟩

/-- The scheduler's starting state for a batch: all records pending,
nothing in flight. -/
def schedStart (records : List Nat) : SchedState :=
  ⟨records, [], []⟩

/-- States the scheduler can reach from the start of a batch. -/
inductive SchedReachable (maxConcurrent : Nat) (records : List Nat) :
    SchedState → Prop where
  | refl : SchedReachable maxConcurrent records (schedStart records)
  | tail {s s' : SchedState} : SchedReachable maxConcurrent records s →
      SchedStep maxConcurrent s s' → SchedReachable maxConcurrent records s'

/-! ## Retry policy (spec §4.4) -/

/-- Modelled from the spec: the retry loop.  `op` takes the attempt
index; a success returns at once, a non-retryable failure fails at once,
a retryable failure retries while `remaining` retries are left
(spec §4.4).  Returns how many times `op` was invoked together with the
final outcome. -/
def retryGo {Err Res : Type} (op : Nat → Except Err Res)
    (retryable : Err → Bool) : Nat → Nat → Nat × Except Err Res
  | remaining, attempt =>
    match op attempt with
    | .ok r => (1, .ok r)
    | .error e =>
      match remaining with
      | 0 => (1, .error e)
      | n + 1 =>
        if retryable e then
          let (c, res) := retryGo op retryable n (attempt + 1)
          (c + 1, res)
        else (1, .error e)

/-- Modelled from the spec: `withRetry(operation, policy)` with
`maxRetries` retries after the initial attempt (spec §4.4). -/
def withRetry {Err Res : Type} (op : Nat → Except Err Res)
    (retryable : Err → Bool) (maxRetries : Nat) : Nat × Except Err Res :=
  retryGo op retryable maxRetries 0

/-- Modelled from the spec: retry policy fields `maxRetries`,
`baseDelay`, `maxDelay`, `exponentialBackoff`, `jitter` (spec §4.4);
delays are exact rationals. -/
structure RetryConfig where
  maxRetries : Nat
  baseDelay : ℚ
  maxDelay : Option ℚ
  exponentialBackoff : Bool
  jitter : Bool

/-- Modelled from the spec: delay = `baseDelay * 2^attempt` when
`exponentialBackoff`, else `baseDelay`, clamped to `maxDelay` when set
(spec §4.4). -/
def computeDelay (cfg : RetryConfig) (attempt : Nat) : ℚ :=
  let d := if cfg.exponentialBackoff then cfg.baseDelay * 2 ^ attempt
           else cfg.baseDelay
  match cfg.maxDelay with
  | some m => min d m
  | none => d

/-- Modelled from the spec: with `jitter`, the computed delay is
multiplied by a uniform random factor in `[0,1]`, given here as the
parameter `f` (spec §4.4). -/
def jitteredDelay (cfg : RetryConfig) (attempt : Nat) (f : ℚ) : ℚ :=
  if cfg.jitter then f * computeDelay cfg attempt
  else computeDelay cfg attempt

/-! ## Router over a type hierarchy (spec §4.1) -/

/-- A handler registration keyed by a type identifier (spec §3). -/
structure Registration (H : Type) where
  key : String
  handler : H

/-- The first registration whose key is the given type, in registration
order (ties resolved by registration order, spec §3). -/
def findAt {H : Type} (regs : List (Registration H)) (t : String) :
    Option (Registration H) :=
  regs.find? fun r => r.key == t

/-- Modelled from the spec: inheritance-aware resolution.  A message's
declared type is given by its ancestor chain, self first; the router
picks, among registrations whose key is an ancestor-or-self, the one
with the smallest ancestor distance (spec §4.1).  The engine code is
not in the source tree. -/
def resolveReg {H : Type} (regs : List (Registration H)) :
    List String → Option (Registration H)
  | [] => none
  | t :: rest =>
    match findAt regs t with
    | some r => some r
    | none => resolveReg regs rest

/-- Modelled from the spec: full resolution with wildcard fallback when
no type-specific match exists (spec §4.1). -/
def resolve {H : Type} (regs : List (Registration H)) (chain : List String)
    (wildcard : Option H) : Option H :=
  match resolveReg regs chain with
  | some r => some r.handler
  | none => wildcard

/-- Ancestor distance of a type key within a declared type's ancestor
chain: 0 is the type itself, 1 its parent, and so on (spec §4.1). -/
def ancestorDist (chain : List String) (k : String) : Nat :=
  chain.findIdx fun t => t == k

/-! ## Per-entity locks (from the source:
`examples/ordering_with_standard_queues/lambda_function.py`) -/

/-- The module-level `entity_locks = {}` dict together with the
`asyncio.Lock()` allocator: a lock object's identity is modelled as the
value of a counter at its creation. -/
structure LockState where
  entity_locks : List (String × Nat)
  nextLock : Nat
deriving DecidableEq, Repr

/-- Dict membership/lookup for `entity_locks`. -/
def lookupLock (l : List (String × Nat)) (k : String) : Option Nat :=
  match l.find? fun p => p.1 == k with
  | some p => some p.2
  | none => none

/-- `get_entity_lock(entity_id)`: if `entity_id not in entity_locks`,
insert a fresh `asyncio.Lock()`; return `entity_locks[entity_id]`
(lambda_function.py lines 31-35). -/
def get_entity_lock (s : LockState) (entity_id : String) : LockState × Nat :=
  match lookupLock s.entity_locks entity_id with
  | some l => (s, l)
  | none =>
    (⟨s.entity_locks ++ [(entity_id, s.nextLock)], s.nextLock + 1⟩, s.nextLock)

/-- A sequence of `get_entity_lock` calls, threading the module state. -/
def runLockCalls (s : LockState) : List String → LockState
  | [] => s
  | k :: rest => runLockCalls (get_entity_lock s k).1 rest

/-! ## Concrete instances used to exercise the theorems -/

/-- A concrete logging-style middleware over a counter context: `before`
bumps the context, `after` adds 10 to the result, `error` never
suppresses. -/
def mwLog : Middleware Nat Unit Nat :=
  ⟨0, fun c => .ok (c + 1), fun c r => (c, r + 10), fun c _ => (c, none)⟩

/-- A concrete metrics-style middleware: `before` bumps the context,
`after` adds 1 to the result, `error` suppresses with substitute 99. -/
def mwMetrics : Middleware Nat Unit Nat :=
  ⟨1, fun c => .ok (c + 1), fun c r => (c, r + 1), fun c _ => (c, some 99)⟩

/-- A concrete validation-style middleware whose `before` always
raises. -/
def mwReject : Middleware Nat Unit Nat :=
  ⟨2, fun _ => .error (), fun c r => (c, r), fun c _ => (c, none)⟩

/-! ## Pipeline trace lemmas -/

theorem beforeIds_append (a b : List Event) :
    beforeIds (a ++ b) = beforeIds a ++ beforeIds b := by
  simp [beforeIds]

theorem afterIds_append (a b : List Event) :
    afterIds (a ++ b) = afterIds a ++ afterIds b := by
  simp [afterIds]

theorem errorIds_append (a b : List Event) :
    errorIds (a ++ b) = errorIds a ++ errorIds b := by
  simp [errorIds]

theorem handlerCount_append (a b : List Event) :
    handlerCount (a ++ b) = handlerCount a + handlerCount b := by
  simp [handlerCount]

theorem beforeIds_beforeMap {Ctx Err Res : Type}
    (l : List (Middleware Ctx Err Res)) :
    beforeIds (l.map fun m => Event.beforeRun m.mid) = l.map fun m => m.mid := by
  induction l with
  | nil => rfl
  | cons m rest ih => simp [beforeIds] at ih ⊢; exact ih

theorem beforeIds_afterMap {Ctx Err Res : Type}
    (l : List (Middleware Ctx Err Res)) :
    beforeIds (l.map fun m => Event.afterRun m.mid) = [] := by
  simp [beforeIds, List.filterMap_map]

theorem beforeIds_errorMap {Ctx Err Res : Type}
    (l : List (Middleware Ctx Err Res)) :
    beforeIds (l.map fun m => Event.errorRun m.mid) = [] := by
  simp [beforeIds, List.filterMap_map]

theorem afterIds_beforeMap {Ctx Err Res : Type}
    (l : List (Middleware Ctx Err Res)) :
    afterIds (l.map fun m => Event.beforeRun m.mid) = [] := by
  simp [afterIds, List.filterMap_map]

theorem afterIds_afterMap {Ctx Err Res : Type}
    (l : List (Middleware Ctx Err Res)) :
    afterIds (l.map fun m => Event.afterRun m.mid) = l.map fun m => m.mid := by
  induction l with
  | nil => rfl
  | cons m rest ih => simp [afterIds] at ih ⊢; exact ih

theorem errorIds_beforeMap {Ctx Err Res : Type}
    (l : List (Middleware Ctx Err Res)) :
    errorIds (l.map fun m => Event.beforeRun m.mid) = [] := by
  simp [errorIds, List.filterMap_map]

theorem errorIds_afterMap {Ctx Err Res : Type}
    (l : List (Middleware Ctx Err Res)) :
    errorIds (l.map fun m => Event.afterRun m.mid) = [] := by
  simp [errorIds, List.filterMap_map]

theorem errorIds_errorMap {Ctx Err Res : Type}
    (l : List (Middleware Ctx Err Res)) :
    errorIds (l.map fun m => Event.errorRun m.mid) = l.map fun m => m.mid := by
  induction l with
  | nil => rfl
  | cons m rest ih => simp [errorIds] at ih ⊢; exact ih

theorem handlerCount_beforeMap {Ctx Err Res : Type}
    (l : List (Middleware Ctx Err Res)) :
    handlerCount (l.map fun m => Event.beforeRun m.mid) = 0 := by
  simp [handlerCount, List.filter_map]

theorem handlerCount_afterMap {Ctx Err Res : Type}
    (l : List (Middleware Ctx Err Res)) :
    handlerCount (l.map fun m => Event.afterRun m.mid) = 0 := by
  simp [handlerCount, List.filter_map]

theorem handlerCount_errorMap {Ctx Err Res : Type}
    (l : List (Middleware Ctx Err Res)) :
    handlerCount (l.map fun m => Event.errorRun m.mid) = 0 := by
  simp [handlerCount, List.filter_map]

theorem runAfters_eq {Ctx Err Res : Type}
    (l : List (Middleware Ctx Err Res)) (ctx : Ctx) (r : Res) :
    runAfters l ctx r =
      (l.map fun m => Event.afterRun m.mid, afterFold l ctx r) := by
  induction l generalizing ctx r with
  | nil => rfl
  | cons m rest ih => simp [runAfters, afterFold, ih]

theorem unwindErrors_noSuppress {Ctx Err Res : Type}
    (l : List (Middleware Ctx Err Res)) (ctx : Ctx) (e : Err)
    (h : ∀ m ∈ l, ∀ c, (m.error c e).2 = none) :
    unwindErrors l ctx e = (l.map fun m => Event.errorRun m.mid, .error e) := by
  induction l generalizing ctx with
  | nil => rfl
  | cons m rest ih =>
    have hm := h m (by simp)
    cases hc : m.error ctx e with
    | mk c1 o =>
      have : o = none := by have := hm ctx; rw [hc] at this; exact this
      subst this
      simp [unwindErrors, hc, ih c1 fun mw hmw => h mw (by simp [hmw])]

theorem unwindErrors_suppress {Ctx Err Res : Type}
    (a : List (Middleware Ctx Err Res)) (m : Middleware Ctx Err Res)
    (b : List (Middleware Ctx Err Res)) (ctx : Ctx) (e : Err) (r : Res)
    (ha : ∀ mw ∈ a, ∀ c, (mw.error c e).2 = none)
    (hm : ∀ c, (m.error c e).2 = some r) :
    unwindErrors (a ++ m :: b) ctx e =
      ((a.map fun mw => Event.errorRun mw.mid) ++ [Event.errorRun m.mid],
       .ok r) := by
  induction a generalizing ctx with
  | nil =>
    cases hc : m.error ctx e with
    | mk c1 o =>
      have : o = some r := by have := hm ctx; rw [hc] at this; exact this
      subst this
      simp [unwindErrors, hc]
  | cons mw rest ih =>
    have hmw := ha mw (by simp)
    cases hc : mw.error ctx e with
    | mk c1 o =>
      have : o = none := by have := hmw ctx; rw [hc] at this; exact this
      subst this
      have ihx := ih c1 fun x hx => ha x (List.mem_cons_of_mem _ hx)
      simp [unwindErrors, hc, ihx]

theorem beforeIds_nil : beforeIds [] = [] := rfl

theorem afterIds_nil : afterIds [] = [] := rfl

theorem errorIds_nil : errorIds [] = [] := rfl

theorem handlerCount_nil : handlerCount [] = 0 := rfl

theorem beforeIds_reverse (tr : List Event) :
    beforeIds tr.reverse = (beforeIds tr).reverse := by
  induction tr with
  | nil => rfl
  | cons e rest ih =>
    cases e <;> simp only [List.reverse_cons, beforeIds,
      List.filterMap_append, List.filterMap_cons, List.filterMap_nil] at ih ⊢ <;>
      simp [ih]

theorem afterIds_reverse (tr : List Event) :
    afterIds tr.reverse = (afterIds tr).reverse := by
  induction tr with
  | nil => rfl
  | cons e rest ih =>
    cases e <;> simp only [List.reverse_cons, afterIds,
      List.filterMap_append, List.filterMap_cons, List.filterMap_nil] at ih ⊢ <;>
      simp [ih]

theorem errorIds_reverse (tr : List Event) :
    errorIds tr.reverse = (errorIds tr).reverse := by
  induction tr with
  | nil => rfl
  | cons e rest ih =>
    cases e <;> simp only [List.reverse_cons, errorIds,
      List.filterMap_append, List.filterMap_cons, List.filterMap_nil] at ih ⊢ <;>
      simp [ih]

theorem handlerCount_reverse (tr : List Event) :
    handlerCount tr.reverse = handlerCount tr := by
  induction tr with
  | nil => rfl
  | cons e rest ih =>
    cases e <;> simp only [List.reverse_cons, handlerCount,
      List.filter_append, List.filter_cons, List.length_append] at ih ⊢ <;>
      simp [ih]

theorem beforeIds_beforeCons (i : Nat) (tr : List Event) :
    beforeIds (Event.beforeRun i :: tr) = i :: beforeIds tr := by
  simp [beforeIds]

theorem beforeIds_errorCons (i : Nat) (tr : List Event) :
    beforeIds (Event.errorRun i :: tr) = beforeIds tr := by
  simp [beforeIds]

theorem afterIds_afterCons (i : Nat) (tr : List Event) :
    afterIds (Event.afterRun i :: tr) = i :: afterIds tr := by
  simp [afterIds]

theorem errorIds_errorCons (i : Nat) (tr : List Event) :
    errorIds (Event.errorRun i :: tr) = i :: errorIds tr := by
  simp [errorIds]

theorem errorIds_beforeCons (i : Nat) (tr : List Event) :
    errorIds (Event.beforeRun i :: tr) = errorIds tr := by
  simp [errorIds]

theorem handlerCount_beforeCons (i : Nat) (tr : List Event) :
    handlerCount (Event.beforeRun i :: tr) = handlerCount tr := by
  simp [handlerCount]

theorem handlerCount_errorCons (i : Nat) (tr : List Event) :
    handlerCount (Event.errorRun i :: tr) = handlerCount tr := by
  simp [handlerCount]

theorem beforeIds_handlerCons (tr : List Event) :
    beforeIds (Event.handlerRun :: tr) = beforeIds tr := by
  simp [beforeIds]

theorem afterIds_handlerCons (tr : List Event) :
    afterIds (Event.handlerRun :: tr) = afterIds tr := by
  simp [afterIds]

theorem errorIds_handlerCons (tr : List Event) :
    errorIds (Event.handlerRun :: tr) = errorIds tr := by
  simp [errorIds]

theorem handlerCount_handlerCons (tr : List Event) :
    handlerCount (Event.handlerRun :: tr) = handlerCount tr + 1 := by
  simp [handlerCount, List.filter]

theorem runPipeline_success {Ctx Err Res : Type}
    (pending ranRev : List (Middleware Ctx Err Res)) (ctx : Ctx)
    (handler : Ctx → Except Err Res) (c : Ctx) (r : Res)
    (hb : beforeChain pending ctx = .ok c) (hh : handler c = .ok r) :
    runPipeline pending ranRev ctx handler =
      ((pending.map fun m => Event.beforeRun m.mid) ++ Event.handlerRun ::
         ((pending.reverse ++ ranRev).map fun m => Event.afterRun m.mid),
       .ok (afterFold (pending.reverse ++ ranRev) c r)) := by
  induction pending generalizing ranRev ctx with
  | nil =>
    simp [beforeChain] at hb
    subst hb
    simp [runPipeline, hh, runAfters_eq]
  | cons m rest ih =>
    cases hbm : m.before ctx with
    | ok ctx1 =>
      have hb' : beforeChain rest ctx1 = .ok c := by
        simpa [beforeChain, hbm] using hb
      simp [runPipeline, hbm, ih (m :: ranRev) ctx1 hb']
    | error e =>
      simp [beforeChain, hbm] at hb

theorem runPipeline_beforeFail {Ctx Err Res : Type}
    (pre : List (Middleware Ctx Err Res)) (m : Middleware Ctx Err Res)
    (post ranRev : List (Middleware Ctx Err Res)) (ctx : Ctx)
    (handler : Ctx → Except Err Res) (c : Ctx) (e : Err)
    (hb : beforeChain pre ctx = .ok c) (hm : m.before c = .error e) :
    runPipeline (pre ++ m :: post) ranRev ctx handler =
      (((pre ++ [m]).map fun mw => Event.beforeRun mw.mid) ++
         (unwindErrors (pre.reverse ++ ranRev) c e).1,
       (unwindErrors (pre.reverse ++ ranRev) c e).2) := by
  induction pre generalizing ranRev ctx with
  | nil =>
    simp [beforeChain] at hb
    subst hb
    cases hu : unwindErrors ranRev ctx e with
    | mk tr res => simp [runPipeline, hm, hu]
  | cons mw rest ih =>
    cases hbm : mw.before ctx with
    | ok ctx1 =>
      have hb' : beforeChain rest ctx1 = .ok c := by
        simpa [beforeChain, hbm] using hb
      simp [runPipeline, hbm, ih (mw :: ranRev) ctx1 hb']
    | error e2 =>
      simp [beforeChain, hbm] at hb

theorem runPipeline_handlerFail {Ctx Err Res : Type}
    (pending ranRev : List (Middleware Ctx Err Res)) (ctx : Ctx)
    (handler : Ctx → Except Err Res) (c : Ctx) (e : Err)
    (hb : beforeChain pending ctx = .ok c) (hh : handler c = .error e) :
    runPipeline pending ranRev ctx handler =
      ((pending.map fun m => Event.beforeRun m.mid) ++ Event.handlerRun ::
         (unwindErrors (pending.reverse ++ ranRev) c e).1,
       (unwindErrors (pending.reverse ++ ranRev) c e).2) := by
  induction pending generalizing ranRev ctx with
  | nil =>
    simp [beforeChain] at hb
    subst hb
    cases hu : unwindErrors ranRev ctx e with
    | mk tr res => simp [runPipeline, hh, hu]
  | cons m rest ih =>
    cases hbm : m.before ctx with
    | ok ctx1 =>
      have hb' : beforeChain rest ctx1 = .ok c := by
        simpa [beforeChain, hbm] using hb
      simp [runPipeline, hbm, ih (m :: ranRev) ctx1 hb']
    | error e2 =>
      simp [beforeChain, hbm] at hb

/-! ## Claim theorems -/

/-- C1: for every ordered list of middleware, the pipeline runs the
`before` hooks in registration order; if any `before` hook raises, the
remaining `before` hooks and the handler are not run and the `error`
hooks of only the already-run middleware execute in reverse registration
order; on handler success every `after` hook runs in reverse
registration order, each receiving and able to overwrite the running
result (the final result is the fold of the `after` hooks, in reverse,
over the handler's result). -/
theorem pipeline_hook_ordering {Ctx Err Res : Type}
    (mws : List (Middleware Ctx Err Res)) (handler : Ctx → Except Err Res)
    (ctx : Ctx) :
    (∀ (pre : List (Middleware Ctx Err Res)) (m : Middleware Ctx Err Res)
       (post : List (Middleware Ctx Err Res)) (e : Err) (c : Ctx),
      mws = pre ++ m :: post → beforeChain pre ctx = .ok c →
      m.before c = .error e →
      (∀ mw ∈ pre, ∀ c2, (mw.error c2 e).2 = none) →
      beforeIds (execute mws handler ctx).1 = (pre ++ [m]).map (fun mw => mw.mid) ∧
      handlerCount (execute mws handler ctx).1 = 0 ∧
      errorIds (execute mws handler ctx).1 = (pre.map fun mw => mw.mid).reverse ∧
      (execute mws handler ctx).2 = .error e) ∧
    (∀ (c : Ctx) (r : Res), beforeChain mws ctx = .ok c → handler c = .ok r →
      beforeIds (execute mws handler ctx).1 = mws.map (fun mw => mw.mid) ∧
      handlerCount (execute mws handler ctx).1 = 1 ∧
      afterIds (execute mws handler ctx).1 = (mws.map fun mw => mw.mid).reverse ∧
      (execute mws handler ctx).2 = .ok (afterFold mws.reverse c r)) := by
  constructor
  · intro pre m post e c hmws hb hm herr
    subst hmws
    have hrw := runPipeline_beforeFail pre m post [] ctx handler c e hb hm
    rw [List.append_nil] at hrw
    have hns : ∀ mw ∈ pre.reverse, ∀ c2, (mw.error c2 e).2 = none := by
      intro mw hmw c2
      exact herr mw (List.mem_reverse.mp hmw) c2
    have hun := unwindErrors_noSuppress pre.reverse c e hns
    rw [hun] at hrw
    show _ ∧ _ ∧ _ ∧ _
    rw [execute, hrw]
    refine ⟨?_, ?_, ?_, rfl⟩
    · simp [beforeIds_append, beforeIds_errorMap, beforeIds_beforeMap,
        beforeIds_reverse, beforeIds_beforeCons, beforeIds_errorCons]
    · simp [handlerCount_append, handlerCount_errorMap, handlerCount_beforeMap,
        handlerCount_reverse, handlerCount_beforeCons, handlerCount_errorCons]
    · simp [errorIds_append, errorIds_errorMap, errorIds_beforeMap,
        errorIds_reverse, errorIds_beforeCons, errorIds_errorCons,
        List.map_reverse]
  · intro c r hb hh
    have hrw := runPipeline_success mws [] ctx handler c r hb hh
    rw [List.append_nil] at hrw
    show _ ∧ _ ∧ _ ∧ _
    rw [execute, hrw]
    refine ⟨?_, ?_, ?_, rfl⟩
    · simp [beforeIds_append, beforeIds_handlerCons, beforeIds_afterMap,
        beforeIds_beforeMap, beforeIds_reverse]
    · simp [handlerCount_append, handlerCount_handlerCons,
        handlerCount_afterMap, handlerCount_beforeMap, handlerCount_reverse]
    · simp [afterIds_append, afterIds_handlerCons, afterIds_afterMap,
        afterIds_beforeMap, afterIds_reverse, List.map_reverse]

/-- Witness for C1: a concrete three-middleware pipeline where the
second middleware's `before` raises; only the first middleware's `before`
ran, the handler never ran, only the first middleware's `error` hook ran,
and the pipeline fails.  Also the all-success case on two middleware:
`before` hooks in order `[0, 1]`, `after` hooks in reverse order
`[1, 0]`, result overwritten to 13. -/
theorem pipeline_hook_ordering_witness :
    (beforeIds (execute [mwLog, mwReject, mwMetrics] (fun c => .ok c) 0).1
        = [0, 2] ∧
      handlerCount (execute [mwLog, mwReject, mwMetrics] (fun c => .ok c) 0).1
        = 0 ∧
      errorIds (execute [mwLog, mwReject, mwMetrics] (fun c => .ok c) 0).1
        = [0] ∧
      (execute [mwLog, mwReject, mwMetrics] (fun c => .ok c) 0).2
        = .error ()) ∧
    (beforeIds (execute [mwLog, mwMetrics] (fun c => .ok c) 0).1 = [0, 1] ∧
      handlerCount (execute [mwLog, mwMetrics] (fun c => .ok c) 0).1 = 1 ∧
      afterIds (execute [mwLog, mwMetrics] (fun c => .ok c) 0).1 = [1, 0] ∧
      (execute [mwLog, mwMetrics] (fun c => .ok c) 0).2 = .ok 13) := by
  constructor
  · have h := (pipeline_hook_ordering [mwLog, mwReject, mwMetrics]
      (fun c => .ok c) 0).1 [mwLog] mwReject [mwMetrics] () 1 rfl rfl rfl
      (by
        intro mw hmw c2
        rcases List.mem_singleton.mp hmw with rfl
        rfl)
    simpa [mwLog, mwReject] using h
  · have h := (pipeline_hook_ordering [mwLog, mwMetrics]
      (fun c => .ok c) 0).2 2 2 rfl rfl
    simpa [mwLog, mwMetrics, afterFold] using h

/-- C7: on handler failure the `error` hooks run in reverse registration
order; if some `error` hook returns a substitute result, unwinding stops
there and the pipeline call succeeds with that result; if no `error`
hook suppresses the failure, every `error` hook runs (in reverse
registration order) and the overall pipeline call fails. -/
theorem error_hook_unwinding {Ctx Err Res : Type}
    (mws : List (Middleware Ctx Err Res)) (handler : Ctx → Except Err Res)
    (ctx : Ctx) :
    (∀ (c : Ctx) (e : Err) (a : List (Middleware Ctx Err Res))
       (m : Middleware Ctx Err Res) (b : List (Middleware Ctx Err Res))
       (r : Res),
      beforeChain mws ctx = .ok c → handler c = .error e →
      mws.reverse = a ++ m :: b →
      (∀ mw ∈ a, ∀ c2, (mw.error c2 e).2 = none) →
      (∀ c2, (m.error c2 e).2 = some r) →
      errorIds (execute mws handler ctx).1 = (a.map fun mw => mw.mid) ++ [m.mid] ∧
      (execute mws handler ctx).2 = .ok r) ∧
    (∀ (c : Ctx) (e : Err),
      beforeChain mws ctx = .ok c → handler c = .error e →
      (∀ mw ∈ mws, ∀ c2, (mw.error c2 e).2 = none) →
      errorIds (execute mws handler ctx).1 = (mws.map fun mw => mw.mid).reverse ∧
      (execute mws handler ctx).2 = .error e) := by
  constructor
  · intro c e a m b r hb hh hrev ha hm
    have hrw := runPipeline_handlerFail mws [] ctx handler c e hb hh
    rw [List.append_nil, hrev] at hrw
    have hun := unwindErrors_suppress a m b c e r ha hm
    rw [hun] at hrw
    show _ ∧ _
    rw [execute, hrw]
    refine ⟨?_, rfl⟩
    simp [errorIds_append, errorIds_handlerCons, errorIds_beforeMap,
      errorIds_errorMap, errorIds_errorCons, errorIds_beforeCons,
      errorIds_reverse, errorIds_nil]
  · intro c e hb hh herr
    have hrw := runPipeline_handlerFail mws [] ctx handler c e hb hh
    rw [List.append_nil] at hrw
    have hns : ∀ mw ∈ mws.reverse, ∀ c2, (mw.error c2 e).2 = none := by
      intro mw hmw c2
      exact herr mw (List.mem_reverse.mp hmw) c2
    have hun := unwindErrors_noSuppress mws.reverse c e hns
    rw [hun] at hrw
    show _ ∧ _
    rw [execute, hrw]
    refine ⟨?_, rfl⟩
    simp [errorIds_append, errorIds_handlerCons, errorIds_beforeMap,
      errorIds_errorMap, errorIds_reverse, errorIds_beforeCons,
      errorIds_errorCons, List.map_reverse]

/-- Witness for C7: with middleware `[mwLog, mwMetrics]` and a failing
handler, `mwMetrics` (last registered) unwinds first and suppresses with
substitute 99, so only its `error` hook runs and the pipeline succeeds;
with `[mwLog]` alone nothing suppresses, its `error` hook runs and the
pipeline fails. -/
theorem error_hook_unwinding_witness :
    (errorIds (execute [mwLog, mwMetrics] (fun _ => .error ()) 0).1 = [1] ∧
      (execute [mwLog, mwMetrics] (fun _ => .error ()) 0).2 = .ok 99) ∧
    (errorIds (execute [mwLog] (fun _ => .error ()) 0).1 = [0] ∧
      (execute [mwLog] (fun _ => .error ()) 0).2 = .error ()) := by
  constructor
  · have h := (error_hook_unwinding [mwLog, mwMetrics]
      (fun _ => .error ()) 0).1 2 () [] mwMetrics [mwLog] 99 rfl rfl rfl
      (by intro mw hmw c2; cases hmw) (fun c2 => rfl)
    simpa [mwMetrics] using h
  · have h := (error_hook_unwinding [mwLog] (fun _ => .error ()) 0).2 1 ()
      rfl rfl
      (by
        intro mw hmw c2
        rcases List.mem_singleton.mp hmw with rfl
        rfl)
    simpa [mwLog] using h

/-- C6: the MiddlewareContext is created fresh for each record and is
never shared across records: the observable processing of a record (its
hook trace and its result) is a function of that record alone, and is
unchanged by whatever sibling records are processed before or after it
in the batch (external stores excepted, which live outside the
context). -/
theorem context_freshness {Ctx Err Res : Type}
    (mws : List (Middleware Ctx Err Res))
    (handler : Record → Ctx → Except Err Res) (mkCtx : Record → Ctx)
    (rs1 rs2 : List Record) (r : Record) :
    processBatch mws handler mkCtx (rs1 ++ r :: rs2) =
      processBatch mws handler mkCtx rs1 ++
        processRecord mws handler mkCtx r ::
          processBatch mws handler mkCtx rs2 := by
  simp [processBatch]

theorem aggregate_foldl_spec (outs : List (String × Bool)) (br : BatchResult) :
    outs.foldl (fun acc o => recordOutcome acc o.1 o.2) br =
      ⟨br.successIds ++ (outs.filter fun o => o.2).map fun o => o.1,
       br.failedIds ++ (outs.filter fun o => !o.2).map fun o => o.1⟩ := by
  induction outs generalizing br with
  | nil => simp
  | cons o rest ih =>
    cases o with
    | mk i ok =>
      rw [List.foldl_cons, ih]
      cases ok <;> simp [recordOutcome, List.filter_cons]

theorem aggregate_spec (outs : List (String × Bool)) :
    aggregate outs =
      ⟨(outs.filter fun o => o.2).map fun o => o.1,
       (outs.filter fun o => !o.2).map fun o => o.1⟩ := by
  simpa [aggregate] using aggregate_foldl_spec outs ⟨[], []⟩

/-- C3: the batch call returns normally (an `.ok` batch result) even
when some records fail; the finalized result assigns every input
record's id to exactly one of success/failure (exactly-one requires the
input ids to be distinct); every id in `failedIds` is an input record
id, and `|failedIds| ≤ |records|`. -/
theorem batch_result_partition {Err Res : Type}
    (perRecord : Record → Except Err Res) (rs : List Record) :
    isSuccess (handleBatch perRecord rs) = true ∧
    (∀ br, handleBatch perRecord rs = .ok br →
      br.failedIds.length ≤ rs.length ∧
      (∀ i ∈ br.failedIds, i ∈ rs.map fun r => r.id) ∧
      (∀ r ∈ rs,
        (isSuccess (perRecord r) = true ∧ r.id ∈ br.successIds) ∨
        (isSuccess (perRecord r) = false ∧ r.id ∈ br.failedIds)) ∧
      ((rs.map fun r => r.id).Nodup →
        ∀ r ∈ rs, ¬(r.id ∈ br.failedIds ∧ r.id ∈ br.successIds))) := by
  refine ⟨rfl, ?_⟩
  intro br hbr
  have hbr' : br = aggregate (rs.map fun r => (r.id, isSuccess (perRecord r))) := by
    have h2 : (Except.ok
        (aggregate (rs.map fun r => (r.id, isSuccess (perRecord r)))) :
        Except String BatchResult) = Except.ok br := hbr
    exact (Except.ok.inj h2).symm
  have hfail : br.failedIds =
      (rs.filter fun r => !isSuccess (perRecord r)).map fun r => r.id := by
    rw [hbr', aggregate_spec]
    simp [List.filter_map, Function.comp_def]
  have hsucc : br.successIds =
      (rs.filter fun r => isSuccess (perRecord r)).map fun r => r.id := by
    rw [hbr', aggregate_spec]
    simp [List.filter_map, Function.comp_def]
  refine ⟨?_, ?_, ?_, ?_⟩
  · rw [hfail]
    simpa using List.length_filter_le _ rs
  · intro i hi
    rw [hfail] at hi
    rcases List.mem_map.mp hi with ⟨r, hr, rfl⟩
    exact List.mem_map_of_mem _ (List.mem_of_mem_filter hr)
  · intro r hr
    cases hp : isSuccess (perRecord r) with
    | true =>
      refine Or.inl ⟨rfl, ?_⟩
      rw [hsucc]
      exact List.mem_map_of_mem _ (List.mem_filter.mpr ⟨hr, by simp [hp]⟩)
    | false =>
      refine Or.inr ⟨rfl, ?_⟩
      rw [hfail]
      exact List.mem_map_of_mem _ (List.mem_filter.mpr ⟨hr, by simp [hp]⟩)
  · intro hnd r hr hboth
    rcases hboth with ⟨hf, hs⟩
    rw [hfail] at hf
    rw [hsucc] at hs
    rcases List.mem_map.mp hf with ⟨r1, hr1, hid1⟩
    rcases List.mem_map.mp hs with ⟨r2, hr2, hid2⟩
    have hr1' := List.mem_of_mem_filter hr1
    have hr2' := List.mem_of_mem_filter hr2
    have heq : r1 = r2 :=
      List.inj_on_of_nodup_map hnd hr1' hr2' (by rw [hid1, hid2])
    have h1 : isSuccess (perRecord r1) = false := by
      have := List.of_mem_filter hr1
      simpa using this
    have h2 : isSuccess (perRecord r2) = true := by
      have := List.of_mem_filter hr2
      simpa using this
    rw [heq, h2] at h1
    cases h1

/-- Witness for C3: a concrete batch of two records where the second
fails; the batch call returns `.ok`, the failed id is an input id,
`|failedIds| = 1 ≤ 2`, and each record lands on exactly one side. -/
theorem batch_result_partition_witness :
    isSuccess (handleBatch
      (fun r => if r.id = "m2" then Except.error "boom" else Except.ok 0)
      [⟨"m1", "a"⟩, ⟨"m2", "b"⟩]) = true ∧
    (aggregate [("m1", true), ("m2", false)]).failedIds.length ≤ 2 ∧
    (∀ i ∈ (aggregate [("m1", true), ("m2", false)]).failedIds,
      i ∈ ["m1", "m2"]) ∧
    ¬("m1" ∈ (aggregate [("m1", true), ("m2", false)]).failedIds ∧
      "m1" ∈ (aggregate [("m1", true), ("m2", false)]).successIds) := by
  have h := batch_result_partition
    (fun r => if r.id = "m2" then Except.error "boom" else Except.ok (0 : Nat))
    [⟨"m1", "a"⟩, ⟨"m2", "b"⟩]
  have h2 := h.2 (aggregate [("m1", true), ("m2", false)]) (by rfl)
  refine ⟨h.1, by simpa using h2.1, ?_, ?_⟩
  · intro i hi
    simpa using h2.2.1 i (by simpa using hi)
  · have := h2.2.2.2 (by decide) ⟨"m1", "a"⟩ (by simp)
    simpa using this

/-- If the operation fails with a retryable error on every attempt, the
retry loop performs every remaining retry: `remaining + 1` invocations
ending in the same error. -/
theorem retryGo_exhaust {Err Res : Type} (op : Nat → Except Err Res)
    (retryable : Err → Bool) (e : Err)
    (hop : ∀ n, op n = .error e) (hr : retryable e = true) :
    ∀ remaining attempt,
      retryGo op retryable remaining attempt = (remaining + 1, .error e) := by
  intro remaining
  induction remaining with
  | zero => intro attempt; simp [retryGo, hop attempt]
  | succ n ih =>
    intro attempt
    simp [retryGo, hop attempt, hr, ih (attempt + 1)]

/-- C5: an operation raising a retryable exception on every attempt is
invoked exactly 4 times under `maxRetries = 3` (1 initial + 3 retries),
the failure is surfaced, and in a batch the record's id is reported in
`failedIds`. -/
theorem retry_exhaustion_four_attempts {Err Res : Type}
    (op : Nat → Except Err Res) (retryable : Err → Bool) (e : Err)
    (rec : Record)
    (hop : ∀ n, op n = .error e) (hr : retryable e = true) :
    withRetry op retryable 3 = (4, .error e) ∧
    ∀ br, handleBatch (fun _ => (withRetry op retryable 3).2) [rec] = .ok br →
      br.failedIds = [rec.id] := by
  have hw : withRetry op retryable 3 = (4, .error e) :=
    retryGo_exhaust op retryable e hop hr 3 0
  refine ⟨hw, ?_⟩
  intro br hbr
  have h2 : (Except.ok (aggregate
      [(rec.id, isSuccess ((withRetry op retryable 3).2))]) :
      Except String BatchResult) = Except.ok br := hbr
  have hbr' := (Except.ok.inj h2).symm
  rw [hbr', hw]
  rfl

/-- Witness for C5: a concrete always-failing retryable operation is
invoked exactly 4 times, and the record `m1` ends up in `failedIds`. -/
theorem retry_exhaustion_four_attempts_witness :
    withRetry (fun _ => (Except.error () : Except Unit Nat))
      (fun _ => true) 3 = (4, .error ()) ∧
    (aggregate [("m1", isSuccess ((withRetry
      (fun _ => (Except.error () : Except Unit Nat))
      (fun _ => true) 3).2))]).failedIds = ["m1"] := by
  have h := retry_exhaustion_four_attempts
    (fun _ => (Except.error () : Except Unit Nat)) (fun _ => true) ()
    ⟨"m1", "b"⟩ (fun _ => rfl) rfl
  exact ⟨h.1, h.2 _ rfl⟩

/-- C9: with `baseDelay = 1.0` and `exponentialBackoff` and no cap, the
delay for attempt `n` equals `baseDelay * 2^n`; with a cap it is clamped
to `maxDelay`; and with jitter enabled the jittered delay lies within
`[0, computedDelay]` for any random factor `f ∈ [0,1]`. -/
theorem backoff_delay_values (cfg : RetryConfig) (n : Nat) (f : ℚ)
    (hbase : cfg.baseDelay = 1) (hexp : cfg.exponentialBackoff = true) :
    (cfg.maxDelay = none → computeDelay cfg n = 2 ^ n) ∧
    (∀ m, cfg.maxDelay = some m → computeDelay cfg n = min ((2 : ℚ) ^ n) m) ∧
    (0 ≤ f → f ≤ 1 → (∀ m, cfg.maxDelay = some m → 0 ≤ m) →
      0 ≤ jitteredDelay cfg n f ∧ jitteredDelay cfg n f ≤ computeDelay cfg n) := by
  have hd : (if cfg.exponentialBackoff then cfg.baseDelay * 2 ^ n
      else cfg.baseDelay) = 2 ^ n := by
    rw [hexp, hbase]
    simp
  refine ⟨?_, ?_, ?_⟩
  · intro hnone
    simp [computeDelay, hnone, hd]
  · intro m hm
    simp [computeDelay, hm, hd]
  · intro hf0 hf1 hcap
    have hpos : (0 : ℚ) ≤ computeDelay cfg n := by
      cases hmd : cfg.maxDelay with
      | none =>
        simp only [computeDelay, hmd, hd]
        positivity
      | some m =>
        simp only [computeDelay, hmd, hd]
        exact le_min (by positivity) (hcap m hmd)
    cases hj : cfg.jitter with
    | false =>
      simp only [jitteredDelay, hj, if_neg Bool.false_ne_true]
      exact ⟨hpos, le_refl _⟩
    | true =>
      simp only [jitteredDelay, hj, if_pos rfl]
      exact ⟨mul_nonneg hf0 hpos, mul_le_of_le_one_left hpos hf1⟩

/-- Witness for C9: with base delay 1, exponential backoff, cap 6 and a
jitter factor of 1/2, the delays for attempts 0..3 are 1, 2, 4, then 8
clamped to 6, and the jittered delay at attempt 2 is 2 ∈ [0, 4]. -/
theorem backoff_delay_values_witness :
    computeDelay ⟨3, 1, none, true, false⟩ 0 = 1 ∧
    computeDelay ⟨3, 1, none, true, false⟩ 1 = 2 ∧
    computeDelay ⟨3, 1, none, true, false⟩ 2 = 4 ∧
    computeDelay ⟨3, 1, none, true, false⟩ 3 = 8 ∧
    computeDelay ⟨3, 1, some 6, true, false⟩ 3 = 6 ∧
    (0 ≤ jitteredDelay ⟨3, 1, none, true, true⟩ 2 (1 / 2) ∧
      jitteredDelay ⟨3, 1, none, true, true⟩ 2 (1 / 2) ≤
        computeDelay ⟨3, 1, none, true, true⟩ 2) := by
  refine ⟨?_, ?_, ?_, ?_, ?_, ?_⟩
  · have h := (backoff_delay_values ⟨3, 1, none, true, false⟩ 0 0 rfl rfl).1 rfl
    rw [h]; norm_num
  · have h := (backoff_delay_values ⟨3, 1, none, true, false⟩ 1 0 rfl rfl).1 rfl
    rw [h]; norm_num
  · have h := (backoff_delay_values ⟨3, 1, none, true, false⟩ 2 0 rfl rfl).1 rfl
    rw [h]; norm_num
  · have h := (backoff_delay_values ⟨3, 1, none, true, false⟩ 3 0 rfl rfl).1 rfl
    rw [h]; norm_num
  · have h := (backoff_delay_values ⟨3, 1, some 6, true, false⟩ 3 0 rfl
      rfl).2.1 6 rfl
    rw [h]; norm_num
  · exact (backoff_delay_values ⟨3, 1, none, true, true⟩ 2 (1 / 2) rfl
      rfl).2.2 (by norm_num) (by norm_num) (by intro m hm; cases hm)

/-- C4: in every state the scheduler can reach while processing a batch,
the number of simultaneously in-flight handler executions never exceeds
the configured `maxConcurrentMessages` bound. -/
theorem scheduler_concurrency_bound (maxConcurrent : Nat) (records : List Nat)
    (s : SchedState) (h : SchedReachable maxConcurrent records s) :
    s.inFlight.length ≤ maxConcurrent := by
  induction h with
  | refl => simp [schedStart]
  | tail _ hs ih =>
    cases hs with
    | start r rest _ hp hlt => simpa using hlt
    | finish r _ hmem =>
      refine le_trans (List.Sublist.length_le ?_) ih
      exact List.erase_sublist _ _

/-- Witness for C4: with bound 2 and batch `[0, 1, 2]`, the state after
starting records 0 and 1 is reachable and holds 2 ≤ 2 in flight. -/
theorem scheduler_concurrency_bound_witness :
    SchedReachable 2 [0, 1, 2] ⟨[2], [1, 0], []⟩ ∧
    (SchedState.mk [2] [1, 0] []).inFlight.length ≤ 2 := by
  have hreach : SchedReachable 2 [0, 1, 2] ⟨[2], [1, 0], []⟩ := by
    have h1 : SchedStep 2 (schedStart [0, 1, 2]) ⟨[1, 2], [0], []⟩ :=
      SchedStep.start 0 [1, 2] _ rfl (by simp [schedStart])
    have h2 : SchedStep 2 ⟨[1, 2], [0], []⟩ ⟨[2], [1, 0], []⟩ :=
      SchedStep.start 1 [2] _ rfl (by simp)
    exact SchedReachable.tail (SchedReachable.tail SchedReachable.refl h1) h2
  exact ⟨hreach, scheduler_concurrency_bound 2 [0, 1, 2] _ hreach⟩

theorem storeGet_after_set {Res : Type} (s : List (IdemEntry Res)) (k : String)
    (r : Res) (exp now : Nat) (h : now < exp) :
    storeGet (storeSet s k r exp) k now = some r := by
  simp [storeGet, storeSet, List.find?, h]

/-- While every call is a hit, the guard never touches the store and
every caller gets the stored result with the hit flag set. -/
theorem runGuards_allHits {Err Res : Type} (ttl : Nat)
    (proceed : Unit → Except Err Res) (s : List (IdemEntry Res)) (k : String)
    (r : Res) (ts : List Nat)
    (h : ∀ t ∈ ts, storeGet s k t = some r) :
    runGuards ttl proceed s (ts.map fun t => (k, t)) =
      (s, ts.map fun _ => ⟨.ok r, true, false⟩) := by
  induction ts with
  | nil => rfl
  | cons t rest ih =>
    have ht := h t (by simp)
    have ihx := ih fun t2 h2 => h t2 (List.mem_cons_of_mem _ h2)
    simp [runGuards, guard, ht, ihx]

/-- C2: for two or more guarded calls carrying the same deduplication
key within the store's TTL, `proceed` executes exactly once (on the
first, missing call); every short-circuited caller receives the stored
result of that single execution, and its outcome carries the idempotency
hit flag, distinguishable by the handler. -/
theorem idempotency_single_execution {Err Res : Type} (ttl : Nat)
    (s : List (IdemEntry Res)) (k : String) (t : Nat) (ts : List Nat)
    (r : Res) (proceed : Unit → Except Err Res)
    (hmiss : storeGet s k t = none) (hok : proceed () = .ok r)
    (hts : ∀ t2 ∈ ts, t2 < t + ttl) :
    proceedCount (runGuards ttl proceed s
      ((k, t) :: ts.map fun t2 => (k, t2))).2 = 1 ∧
    (runGuards ttl proceed s ((k, t) :: ts.map fun t2 => (k, t2))).2 =
      ⟨.ok r, false, true⟩ :: (ts.map fun _ => ⟨.ok r, true, false⟩) ∧
    ∀ o ∈ ((runGuards ttl proceed s
        ((k, t) :: ts.map fun t2 => (k, t2))).2).tail,
      o.result = .ok r ∧ o.hit = true := by
  have hfirst : guard ttl s k t proceed =
      (storeSet s k r (t + ttl), ⟨.ok r, false, true⟩) := by
    simp [guard, hmiss, hok]
  have hhits : ∀ t2 ∈ ts, storeGet (storeSet s k r (t + ttl)) k t2 = some r :=
    fun t2 h2 => storeGet_after_set s k r (t + ttl) t2 (hts t2 h2)
  have hrest := runGuards_allHits ttl proceed (storeSet s k r (t + ttl)) k r
    ts hhits
  have hrun : runGuards ttl proceed s ((k, t) :: ts.map fun t2 => (k, t2)) =
      (storeSet s k r (t + ttl),
       ⟨.ok r, false, true⟩ :: ts.map fun _ => ⟨.ok r, true, false⟩) := by
    simp [runGuards, hfirst, hrest]
  rw [hrun]
  refine ⟨?_, rfl, ?_⟩
  · simp only [proceedCount, List.filter_cons]
    have : (List.filter (fun o => o.proceeded)
        (ts.map fun _ => (⟨.ok r, true, false⟩ : GuardOutcome Err Res))) = [] := by
      induction ts with
      | nil => rfl
      | cons t2 rest ih => simp [List.filter_cons, ih]
    simp [this]
  · intro o ho
    have ho2 : o = ⟨.ok r, true, false⟩ := by
      simp at ho
      exact ho.2
    rw [ho2]
    exact ⟨rfl, rfl⟩

/-- Witness for C2: key `ORD-001` guarded three times at times 0, 10, 20
with TTL 100 on an empty store: `proceed` runs once, the second and
third callers see the stored result 7 with the hit flag. -/
theorem idempotency_single_execution_witness :
    proceedCount (runGuards 100 (fun _ => (Except.ok 7 : Except Unit Nat)) []
      [("ORD-001", 0), ("ORD-001", 10), ("ORD-001", 20)]).2 = 1 ∧
    (runGuards 100 (fun _ => (Except.ok 7 : Except Unit Nat)) []
        [("ORD-001", 0), ("ORD-001", 10), ("ORD-001", 20)]).2 =
      ⟨.ok 7, false, true⟩ ::
        [(10 : Nat), 20].map (fun _ => ⟨.ok 7, true, false⟩) := by
  have h := idempotency_single_execution 100 [] "ORD-001" 0 [10, 20] 7
    (fun _ => (Except.ok 7 : Except Unit Nat)) rfl rfl
    (by intro t2 h2; fin_cases h2 <;> norm_num)
  exact ⟨h.1, h.2.1⟩

theorem lookupLock_append_left (a b : List (String × Nat)) (k : String)
    (l : Nat) (h : lookupLock a k = some l) : lookupLock (a ++ b) k = some l := by
  unfold lookupLock at h ⊢
  cases hf : a.find? fun p => p.1 == k with
  | none => rw [hf] at h; cases h
  | some p =>
    rw [hf] at h
    simp [List.find?_append, hf]
    simpa using h

theorem lookupLock_append_fresh (a : List (String × Nat)) (k : String) (v : Nat)
    (h : lookupLock a k = none) : lookupLock (a ++ [(k, v)]) k = some v := by
  unfold lookupLock at h ⊢
  cases hf : a.find? fun p => p.1 == k with
  | some p => rw [hf] at h; cases h
  | none => simp [List.find?_append, hf, List.find?]

theorem get_entity_lock_found (s : LockState) (k : String) (l : Nat)
    (h : lookupLock s.entity_locks k = some l) : get_entity_lock s k = (s, l) := by
  simp [get_entity_lock, h]

theorem get_entity_lock_lookup (s : LockState) (k : String) :
    lookupLock (get_entity_lock s k).1.entity_locks k =
      some (get_entity_lock s k).2 := by
  cases hl : lookupLock s.entity_locks k with
  | some l => simp [get_entity_lock, hl]
  | none =>
    simp only [get_entity_lock, hl]
    exact lookupLock_append_fresh _ _ _ hl

theorem get_entity_lock_preserves (s : LockState) (k k2 : String) (l : Nat)
    (h : lookupLock s.entity_locks k = some l) :
    lookupLock (get_entity_lock s k2).1.entity_locks k = some l := by
  cases hl : lookupLock s.entity_locks k2 with
  | some _ => simpa [get_entity_lock, hl] using h
  | none =>
    simp only [get_entity_lock, hl]
    exact lookupLock_append_left _ _ _ _ h

theorem runLockCalls_preserves (ks : List String) (s : LockState) (k : String)
    (l : Nat) (h : lookupLock s.entity_locks k = some l) :
    lookupLock (runLockCalls s ks).entity_locks k = some l := by
  induction ks generalizing s with
  | nil => exact h
  | cons k2 rest ih =>
    exact ih _ (get_entity_lock_preserves s k k2 l h)

theorem runLockCalls_grows (ks : List String) (s : LockState) :
    ∃ t, (runLockCalls s ks).entity_locks = s.entity_locks ++ t := by
  induction ks generalizing s with
  | nil => exact ⟨[], by simp [runLockCalls]⟩
  | cons k2 rest ih =>
    cases hl : lookupLock s.entity_locks k2 with
    | some _ =>
      rcases ih (get_entity_lock s k2).1 with ⟨t, ht⟩
      exact ⟨t, by simpa [runLockCalls, get_entity_lock, hl] using ht⟩
    | none =>
      rcases ih (get_entity_lock s k2).1 with ⟨t, ht⟩
      refine ⟨(k2, s.nextLock) :: t, ?_⟩
      simp only [runLockCalls, get_entity_lock, hl] at ht ⊢
      rw [ht]
      simp

/-- C10: `get_entity_lock` is an idempotent lookup — after the first
call for an entity id, any later call with that id (regardless of the
other calls in between) returns the identical lock and leaves the map
untouched — and no call ever removes an entry: over any sequence of
calls, `entity_locks` only grows (the old map is a prefix of the new
one). -/
theorem entity_lock_idempotent_monotone (s : LockState) (k : String)
    (ks : List String) :
    get_entity_lock (runLockCalls (get_entity_lock s k).1 ks) k =
      (runLockCalls (get_entity_lock s k).1 ks, (get_entity_lock s k).2) ∧
    ∃ t, (runLockCalls s ks).entity_locks = s.entity_locks ++ t := by
  constructor
  · exact get_entity_lock_found _ _ _
      (runLockCalls_preserves ks _ k _ (get_entity_lock_lookup s k))
  · exact runLockCalls_grows ks s

theorem resolveReg_minimal {H : Type} (regs : List (Registration H)) :
    ∀ (chain : List String) (r : Registration H),
      resolveReg regs chain = some r →
      r ∈ regs ∧ r.key ∈ chain ∧
      ∀ r2 ∈ regs, r2.key ∈ chain →
        ancestorDist chain r.key ≤ ancestorDist chain r2.key := by
  intro chain
  induction chain with
  | nil => intro r h; cases h
  | cons t rest ih =>
    intro r h
    cases hf : findAt regs t with
    | some r0 =>
      have hr : r = r0 := by
        simp [resolveReg, hf] at h
        exact h.symm
      subst hr
      have hkey : r.key = t := by
        have := List.find?_some hf
        simpa using this
      refine ⟨List.mem_of_find?_eq_some hf, by simp [hkey], ?_⟩
      intro r2 _ _
      have : ancestorDist (t :: rest) r.key = 0 := by
        simp [ancestorDist, List.findIdx_cons, hkey]
      rw [this]
      exact Nat.zero_le _
    | none =>
      have h' : resolveReg regs rest = some r := by
        simpa [resolveReg, hf] using h
      rcases ih r h' with ⟨hmem, hkey, hmin⟩
      have hnot : ∀ x ∈ regs, x.key ≠ t := by
        intro x hx
        have := List.find?_eq_none.mp hf x hx
        simpa using this
      refine ⟨hmem, List.mem_cons_of_mem _ hkey, ?_⟩
      intro r2 hr2 hk2
      have hk2' : r2.key ∈ rest := by
        rcases List.mem_cons.mp hk2 with h1 | h1
        · exact absurd h1 (hnot r2 hr2)
        · exact h1
      have hrne : r.key ≠ t := hnot r hmem
      have hb1 : (t == r.key) = false :=
        beq_eq_false_iff_ne.mpr (Ne.symm hrne)
      have hb2 : (t == r2.key) = false :=
        beq_eq_false_iff_ne.mpr (Ne.symm (hnot r2 hr2))
      have e1 : ancestorDist (t :: rest) r.key = ancestorDist rest r.key + 1 := by
        simp [ancestorDist, List.findIdx_cons, hb1]
      have e2 : ancestorDist (t :: rest) r2.key = ancestorDist rest r2.key + 1 := by
        simp [ancestorDist, List.findIdx_cons, hb2]
      rw [e1, e2]
      exact Nat.succ_le_succ (hmin r2 hr2 hk2')

theorem resolveReg_none {H : Type} (regs : List (Registration H)) :
    ∀ chain : List String, (∀ r ∈ regs, ¬ r.key ∈ chain) →
      resolveReg regs chain = none := by
  intro chain
  induction chain with
  | nil => intro _; rfl
  | cons t rest ih =>
    intro h
    have hf : findAt regs t = none := by
      refine List.find?_eq_none.mpr ?_
      intro x hx
      simp only [beq_iff_eq]
      intro hxt
      exact h x hx (hxt ▸ List.mem_cons_self t rest)
    simp [resolveReg, hf,
      ih fun r hr hmem => h r hr (List.mem_cons_of_mem _ hmem)]

/-- C8: the router picks, among all registrations whose key is an
ancestor-or-self of the message's declared type, one with the smallest
ancestor distance; a message whose declared type (chain head) has a
registered handler is dispatched to it (so a derived registration beats
a base one); and when no registration matches any ancestor, resolution
falls to the wildcard. -/
theorem router_specificity {H : Type} (regs : List (Registration H))
    (chain : List String) (wc : Option H) :
    (∀ r, resolveReg regs chain = some r →
      r ∈ regs ∧ r.key ∈ chain ∧
      ∀ r2 ∈ regs, r2.key ∈ chain →
        ancestorDist chain r.key ≤ ancestorDist chain r2.key) ∧
    (∀ (t : String) (rest : List String) (r : Registration H),
      chain = t :: rest → findAt regs t = some r →
      resolve regs chain wc = some r.handler) ∧
    ((∀ r ∈ regs, ¬ r.key ∈ chain) → resolve regs chain wc = wc) := by
  refine ⟨fun r h => resolveReg_minimal regs chain r h, ?_, ?_⟩
  · intro t rest r hchain hf
    subst hchain
    simp [resolve, resolveReg, hf]
  · intro h
    simp [resolve, resolveReg_none regs chain h]

/-- Witness for C8: with handlers registered for `car` (derived) and
`vehicle` (base), a message declared as `car` dispatches to the car
handler; for a declared `bus` (unregistered sibling) the base
registration is a minimal-distance match; a declared `plane` with no
matching ancestor falls to the wildcard. -/
theorem router_specificity_witness :
    resolve [⟨"car", 0⟩, ⟨"vehicle", 1⟩] ["car", "vehicle"] (some 9) = some 0 ∧
    (∀ r2 ∈ [(⟨"car", 0⟩ : Registration Nat), ⟨"vehicle", 1⟩],
      r2.key ∈ ["bus", "vehicle"] →
      ancestorDist ["bus", "vehicle"] "vehicle" ≤
        ancestorDist ["bus", "vehicle"] r2.key) ∧
    resolve [(⟨"car", 0⟩ : Registration Nat), ⟨"vehicle", 1⟩] ["plane"]
      (some 9) = some 9 := by
  refine ⟨?_, ?_, ?_⟩
  · exact (router_specificity [⟨"car", 0⟩, ⟨"vehicle", 1⟩] ["car", "vehicle"]
      (some 9)).2.1 "car" ["vehicle"] ⟨"car", 0⟩ rfl rfl
  · exact ((router_specificity [⟨"car", 0⟩, ⟨"vehicle", 1⟩] ["bus", "vehicle"]
      (some 9)).1 ⟨"vehicle", 1⟩ rfl).2.2
  · refine (router_specificity [⟨"car", 0⟩, ⟨"vehicle", 1⟩] ["plane"]
      (some 9)).2.2 ?_
    intro r hr
    rcases List.mem_cons.mp hr with h1 | h1
    · subst h1; simp
    · rcases List.mem_singleton.mp h1 with rfl; simp

end FastSQS
